import Mathlib

/-!
Verification of the `compression` repository (src/compression.cpp) against its
natural-language specification.

Bytes are modelled as natural numbers `0 ≤ b < 256` (the value of the 8-bit
pattern stored in a C++ `char`).  Where the C++ code converts a wider integer
to `char`, the model truncates with `% 256`; where the C++ code reads a `char`
into a signed integer, the model reinterprets values `≥ 128` as negative
(see `toSigned` / `u64OfChar`).  Functions whose C++ counterparts can hit
undefined behaviour (out-of-range `std::vector` indexing / iterator
dereference) return `Option` and yield `none` exactly at the undefined point.
Loops whose bound is not structural carry an explicit fuel argument; every
call site supplies fuel that is provably sufficient for the terminating runs,
and non-termination of a C++ loop shows up as `none` for every fuel.
-/

set_option maxRecDepth 100000

/-! ## Run-length codec (src/compression.cpp lines 30-78) -/

/-- Length of the maximal run of the byte `b` at the head of the list:
the count computed by the do-while loop in `compression::rle::encode`
(compression.cpp lines 40-43, starting from `startByte = b`). -/
def runLength : List Nat → Nat → Nat
  | [], _ => 0
  | x :: xs, b => if x = b then runLength xs b + 1 else 0

/-- Loop of `compression::rle::encode` (compression.cpp lines 36-49).
For each position it counts the run of the current byte, pushes the count
truncated to a `char` (`% 256` — note the C++ code never caps the count at
255), pushes the byte, and skips past the run.  The fuel is the number of
remaining loop iterations; `rle.encode` supplies the input length, which is
always sufficient because each iteration consumes at least one input byte. -/
def rleEncodeLoop : Nat → List Nat → List Nat
  | _, [] => []
  | 0, _ :: _ => []
  | fuel + 1, x :: xs =>
    let k := runLength xs x + 1
    (k % 256) :: x :: rleEncodeLoop fuel (List.drop (k - 1) xs)

/-- `compression::rle::encode` (compression.cpp lines 30-52). -/
def rle.encode (dataIn : List Nat) : List Nat :=
  rleEncodeLoop dataIn.length dataIn

/-- Value of a byte pattern read through `char` and widened to `uint64_t`,
as happens in `byteRunCount = *itBytes;` (compression.cpp line 68): patterns
`≥ 128` are negative `char`s and sign-extend to huge unsigned values. -/
def u64OfChar (c : Nat) : Nat :=
  if c < 128 then c else 2 ^ 64 - 256 + c

/-- `compression::rle::decode` (compression.cpp lines 60-78): consumes
`(count, byte)` pairs and replicates.  A trailing odd byte makes the C++
code dereference past the end of the vector and step the iterator beyond
`end()` (undefined behaviour), modelled as `none`. -/
def rle.decode : List Nat → Option (List Nat)
  | [] => some []
  | [_] => none
  | c :: b :: rest =>
    (rle.decode rest).map (fun tail => List.replicate (u64OfChar c) b ++ tail)

/-- Mirror of `rleEncodeLoop`'s iteration pattern that checks that every
run the encoder identifies has length at most 127 (so that the count byte,
read back through a signed `char`, round-trips). -/
def runsBoundedLoop : Nat → List Nat → Bool
  | _, [] => true
  | 0, _ :: _ => false
  | fuel + 1, x :: xs =>
    (runLength xs x + 1 ≤ 127) && runsBoundedLoop fuel (List.drop (runLength xs x) xs)

/-- Every maximal run of identical consecutive bytes has length at most 127. -/
def runsBounded (l : List Nat) : Bool :=
  runsBoundedLoop l.length l

theorem runLength_replicate (n : Nat) (b : Nat) :
    runLength (List.replicate n b) b = n := by
  induction n with
  | zero => simp [runLength]
  | succ k ih => simp [List.replicate, runLength, ih]

theorem runLength_le_length (l : List Nat) (b : Nat) : runLength l b ≤ l.length := by
  induction l generalizing b with
  | nil => simp [runLength]
  | cons x xs ih =>
    simp only [runLength, List.length_cons]
    split
    · exact Nat.succ_le_succ (ih b)
    · exact Nat.zero_le _

theorem replicate_runLength_append (l : List Nat) (b : Nat) :
    List.replicate (runLength l b) b ++ List.drop (runLength l b) l = l := by
  induction l generalizing b with
  | nil => simp [runLength]
  | cons x xs ih =>
    by_cases hx : x = b
    · subst hx
      simp only [runLength, if_pos rfl, List.replicate, List.cons_append, List.drop_succ_cons]
      exact congrArg (x :: ·) (ih x)
    · simp [runLength, hx]

/-- Round trip for the RLE codec, fuel-general form: if every run is at most
127 bytes long, decoding the encoding restores the input and the encoding has
even length. -/
theorem rle_roundtrip_loop (fuel : Nat) :
    ∀ l : List Nat, l.length ≤ fuel → runsBoundedLoop fuel l = true →
      rle.decode (rleEncodeLoop fuel l) = some l ∧ (rleEncodeLoop fuel l).length % 2 = 0 := by
  induction fuel with
  | zero =>
    intro l hl hb
    match l with
    | [] => exact ⟨rfl, rfl⟩
    | x :: xs => simp at hl
  | succ fuel ih =>
    intro l hl hb
    match l with
    | [] => exact ⟨rfl, rfl⟩
    | x :: xs =>
      simp only [runsBoundedLoop, Bool.and_eq_true, decide_eq_true_eq] at hb
      obtain ⟨hk, hrest⟩ := hb
      have hlen : (List.drop (runLength xs x) xs).length ≤ fuel := by
        have := List.length_drop (runLength xs x) xs
        simp only [List.length_cons] at hl
        omega
      obtain ⟨hdec, heven⟩ := ih (List.drop (runLength xs x) xs) hlen hrest
      have hmod : (runLength xs x + 1) % 256 = runLength xs x + 1 :=
        Nat.mod_eq_of_lt (by omega)
      have hchar : u64OfChar (runLength xs x + 1) = runLength xs x + 1 := by
        unfold u64OfChar
        rw [if_pos (by omega)]
      constructor
      · simp only [rleEncodeLoop, Nat.add_sub_cancel, rle.decode, hmod, hdec, Option.map_some',
          hchar, Option.some.injEq]
        have : List.replicate (runLength xs x + 1) x ++ List.drop (runLength xs x) xs
            = x :: xs := by
          have := replicate_runLength_append xs x
          simp only [List.replicate, List.cons_append]
          exact congrArg (x :: ·) this
        exact this
      · simp only [rleEncodeLoop, Nat.add_sub_cancel, List.length_cons]
        omega

/-- C10: for inputs whose maximal runs all have length at most 127, the RLE
round trip `decode (encode b) = b` holds and the encoding has even length
(two bytes per run). -/
theorem rle_roundtrip_bounded_runs (b : List Nat) (h : runsBounded b = true) :
    rle.decode (rle.encode b) = some b ∧ (rle.encode b).length % 2 = 0 :=
  rle_roundtrip_loop b.length b (Nat.le_refl _) h

/-- Witness for `rle_roundtrip_bounded_runs` at the concrete input `[65, 65, 66]`. -/
theorem rle_roundtrip_bounded_runs_witness :
    runsBounded [65, 65, 66] = true ∧
      (rle.decode (rle.encode [65, 65, 66]) = some [65, 65, 66] ∧
        (rle.encode [65, 65, 66]).length % 2 = 0) :=
  ⟨by decide, rle_roundtrip_bounded_runs [65, 65, 66] (by decide)⟩

/-- C2: the unrestricted RLE round trip fails.  A run of 300 identical bytes
is encoded with its count truncated to the `char` pattern `300 % 256 = 44`
(compression.cpp line 45 pushes a `uint64_t` count into a `vector<char>`),
so decoding returns 44 bytes instead of 300. -/
theorem rle_roundtrip_fails_on_long_run :
    rle.decode (rle.encode (List.replicate 300 65)) = some (List.replicate 44 65) ∧
      List.replicate 44 65 ≠ List.replicate 300 65 := by
  constructor
  · decide
  · intro h
    have := congrArg List.length h
    simp at this

/-- C6: `compression::rle::encode` does not cap run lengths at 255: a run of
300 identical bytes produces the single record `(300 % 256, byte) = (44, 65)`
rather than the two records `(255, 65), (45, 65)` the specification claims. -/
theorem rle_encode_no_run_split :
    rle.encode (List.replicate 300 65) = [44, 65] ∧
      rle.encode (List.replicate 300 65) ≠ [255, 65, 45, 65] := by
  constructor
  · decide
  · decide

/-! ## Huffman tree (src/compression.cpp lines 83-188) -/

/-- Signed value of a byte pattern stored in a C++ `char` (signed on the
original platform); `std::map<char, ...>` orders its keys by this value. -/
def toSigned (b : Nat) : Int :=
  if b < 128 then (b : Int) else (b : Int) - 256

/-- Key order of `std::map<char, ...>`. -/
def charLt (a b : Nat) : Prop := toSigned a < toSigned b

instance (a b : Nat) : Decidable (charLt a b) := by
  unfold charLt; infer_instance

/-- Encoder-side Huffman tree node (`compression::huffman::node_t`,
compression.cpp lines 83-186).  The encoder creates nodes either as leaves
(line 323, no children) or as internal nodes owning exactly two non-null
children (line 332), so the tree type carries that shape invariant. -/
inductive node_t
  | leaf (byte : Nat) (occurences : Nat)
  | internal (child0 child1 : node_t) (occurences : Nat)
deriving DecidableEq

/-- The `occurences` field. -/
def node_t.occurences : node_t → Nat
  | leaf _ o => o
  | internal _ _ o => o

/-- Insertion into the `std::map<char, uint64_t>` frequency map with
`++byteOccurences[byte]` (compression.cpp lines 316-319): keeps the
association list sorted by `charLt` and increments an existing count. -/
def mapInsertCount : List (Nat × Nat) → Nat → List (Nat × Nat)
  | [], b => [(b, 1)]
  | (k, v) :: rest, b =>
    if b = k then (k, v + 1) :: rest
    else if charLt b k then (b, 1) :: (k, v) :: rest
    else (k, v) :: mapInsertCount rest b

/-- The frequency map `byteOccurences` after counting all of `dataIn`. -/
def freqMap (dataIn : List Nat) : List (Nat × Nat) :=
  dataIn.foldl mapInsertCount []

/-- The initial `treeNodes` vector: one leaf per distinct symbol, pushed in
map iteration order (compression.cpp lines 321-324). -/
def initialNodes (dataIn : List Nat) : List node_t :=
  (freqMap dataIn).map (fun p => node_t.leaf p.1 p.2)

/-- Stable insertion into a list sorted by ascending `occurences`; equal
weights keep their existing relative order. -/
def insertNode (n : node_t) : List node_t → List node_t
  | [] => [n]
  | m :: rest =>
    if n.occurences < m.occurences then n :: m :: rest else m :: insertNode n rest

/-- Deterministic stand-in for the `std::sort` call at compression.cpp line
328, which orders `treeNodes` by ascending `occurences` (the comparator looks
only at `occurences`; `std::sort` leaves the order of equal elements
unspecified, and this model fixes the stable order). -/
def sortNodes : List node_t → List node_t
  | [] => []
  | x :: xs => insertNode x (sortNodes xs)

theorem insertNode_length (n : node_t) (l : List node_t) :
    (insertNode n l).length = l.length + 1 := by
  induction l with
  | nil => rfl
  | cons m rest ih =>
    simp only [insertNode]
    split
    · simp
    · simp [ih]

theorem sortNodes_length (l : List node_t) : (sortNodes l).length = l.length := by
  induction l with
  | nil => rfl
  | cons x xs ih => simp [sortNodes, insertNode_length, ih]

/-- The `while (treeNodes.size() > 1)` merge loop (compression.cpp lines
326-335): sort, merge the two lowest-weight nodes into a new internal node
pushed at the back, repeat.  Fuel bounds the number of iterations; the
original list length is always sufficient since each iteration removes one
node.  An empty node list never reaches a single root: the C++ code then
reads `treeNodes[0]` out of bounds (line 338), modelled as `none`. -/
def buildTreeLoop : Nat → List node_t → Option node_t
  | _, [] => none
  | _, [t] => some t
  | 0, _ :: _ :: _ => none
  | fuel + 1, t0 :: t1 :: rest =>
    match sortNodes (t0 :: t1 :: rest) with
    | [] => none
    | [_] => none
    | a :: b :: rest' =>
      buildTreeLoop fuel (rest' ++ [node_t.internal a b (a.occurences + b.occurences)])

/-- Huffman tree construction from the initial leaf vector. -/
def buildTree (l : List node_t) : Option node_t :=
  buildTreeLoop l.length l

/-- Depth-first traversal of `node_t::getCode` (compression.cpp lines
123-138) listing `(byte, path)` for every leaf: the zero branch (`first`)
appends bit `false`, the one branch (`second`) appends bit `true`, and the
path accumulated in the static `tempBitset` is recorded on reaching a node
without two children. -/
def getCodeList : node_t → List Bool → List (Nat × List Bool)
  | node_t.leaf b _, path => [(b, path)]
  | node_t.internal c0 c1 _, path =>
    getCodeList c0 (path ++ [false]) ++ getCodeList c1 (path ++ [true])

/-- Insertion into the `std::map<char, std::vector<bool>>` written by
`nodes[byte] = tempBitset`: sorted by `charLt`, assignment overwrites. -/
def mapInsertCode : List (Nat × List Bool) → Nat → List Bool → List (Nat × List Bool)
  | [], b, bits => [(b, bits)]
  | (k, v) :: rest, b, bits =>
    if b = k then (k, bits) :: rest
    else if charLt b k then (b, bits) :: (k, v) :: rest
    else (k, v) :: mapInsertCode rest b bits

/-- The code table `node_t::getCode` produces: the traversal entries written
into the `std::map` in traversal order. -/
def node_t.getCode (t : node_t) : List (Nat × List Bool) :=
  (getCodeList t []).foldl (fun m p => mapInsertCode m p.1 p.2) []

/-- The code table built inside `compression::huffman::encode`
(compression.cpp lines 311-338): frequency count, tree build, `getCode`. -/
def huffCodeTable (dataIn : List Nat) : Option (List (Nat × List Bool)) :=
  (buildTree (initialNodes dataIn)).map node_t.getCode

/-! ## Header codec (src/compression.cpp lines 190-301) -/

/-- Bit-packing loop of `compression::huffman::header::serialize`
(compression.cpp lines 207-221): a zero byte is pushed before the loop, each
code bit is or-ed in at position `itBits` counting down from 7, and a fresh
zero byte is pushed on wrap-around only while bits remain.  `acc` is the value
of the byte currently being filled. -/
def packBitsAux : List Bool → Nat → Nat → List Nat
  | [], acc, _ => [acc]
  | b :: rest, acc, itBits =>
    let acc' := acc + (if b then 2 ^ itBits else 0)
    if itBits = 0 then
      match rest with
      | [] => [acc']
      | _ :: _ => acc' :: packBitsAux rest 0 7
    else packBitsAux rest acc' (itBits - 1)

/-- The data bytes emitted for one code: at least one byte is always pushed,
even for an empty code. -/
def packCodeBytes (bits : List Bool) : List Nat :=
  packBitsAux bits 0 7

/-- The bytes `serialize` emits for one `(symbol, code)` pair: the symbol,
the code bit-length truncated to a `char`, then the packed code bytes. -/
def headerEntry (sym : Nat) (bits : List Bool) : List Nat :=
  sym :: (bits.length % 256) :: packCodeBytes bits

/-- All code-table entry bytes, in map iteration order.  Each pair's bytes
are independent of the others' (the or-ing at compression.cpp line 211 only
touches the final byte pushed for the current pair), so the single imperative
loop is the concatenation of per-pair segments. -/
def headerEntries (code : List (Nat × List Bool)) : List Nat :=
  (code.map (fun p => headerEntry p.1 p.2)).flatten

/-- `compression::huffman::header::serialize` (compression.cpp lines
197-228).  After the entry bytes are built, the length prefix is inserted at
the front in two steps: first `char(header.size() + 2)` (the low byte), then
`char((header.size() + 1) >> 8)` computed after the first insert grew the
vector by one — so the two bytes are the big-endian halves of
`entries.length + 2`, a count that includes the two prefix bytes themselves. -/
def header.serialize (code : List (Nat × List Bool)) : List Nat :=
  let entries := headerEntries code
  let afterLow := ((entries.length + 2) % 256) :: entries
  (((afterLow.length + 1) >>> 8) % 256) :: afterLow

/-- The four big-endian bytes of `dataIn.size()` inserted at the front of the
output (compression.cpp lines 341-344, insertion order low byte first). -/
def be32 (n : Nat) : List Nat :=
  [(n >>> 24) % 256, (n >>> 16) % 256, (n >>> 8) % 256, n % 256]

/-- Payload bit-packing loop of `compression::huffman::encode`
(compression.cpp lines 346-363): identical bit layout to `packBitsAux`,
except that a fresh zero byte is pushed on every wrap-around — so a payload
whose bit count is a multiple of 8 ends with an all-zero byte, and an empty
bit sequence produces the single zero byte pushed before the loop. -/
def packPayloadAux : List Bool → Nat → Nat → List Nat
  | [], acc, _ => [acc]
  | b :: rest, acc, itBits =>
    let acc' := acc + (if b then 2 ^ itBits else 0)
    if itBits = 0 then acc' :: packPayloadAux rest 0 7
    else packPayloadAux rest acc' (itBits - 1)

/-- The packed payload bytes. -/
def packPayload (bits : List Bool) : List Nat :=
  packPayloadAux bits 0 7

/-- `code[byte]`: association-list lookup in the code table (the map's
`operator[]`; every byte of `dataIn` has an entry, so the default-insertion
path is never taken during encoding). -/
def lookupCode (code : List (Nat × List Bool)) (b : Nat) : List Bool :=
  match code.find? (fun p => p.1 = b) with
  | some p => p.2
  | none => []

/-- The concatenated code bits of all input bytes, in input order. -/
def payloadBits (code : List (Nat × List Bool)) (dataIn : List Nat) : List Bool :=
  (dataIn.map (lookupCode code)).flatten

/-- `compression::huffman::encode`, single-argument overload (compression.cpp
lines 306-368 and 398-409): frequency count, tree build, code extraction,
header serialization, length prefix, payload packing.  On empty input the
node vector is empty and line 338 indexes `treeNodes[0]` out of bounds
(undefined behaviour), modelled as `none`. -/
def huffman.encode (dataIn : List Nat) : Option (List Nat) :=
  match buildTree (initialNodes dataIn) with
  | none => none
  | some t =>
    let code := t.getCode
    some (be32 dataIn.length ++ header.serialize code ++ packPayload (payloadBits code dataIn))

/-! ## Header deserialization and Huffman decode (src/compression.cpp lines 271-300, 494-565) -/

/-- Bit-reading loop of `header::deserialize` (compression.cpp lines
282-296): reads `n` code bits MSB-first starting at bit 7 of the first stream
byte; the stream iterator advances mid-loop on wrap-around only while bits
remain, and the `++itHeader` after the loop always consumes one further byte
— so even a 0-bit code consumes one data byte.  Reading past the end of the
header slice is undefined behaviour, modelled as `none`. -/
def takeBits : Nat → Nat → List Nat → Option (List Bool × List Nat)
  | 0, _, [] => none
  | 0, _, _ :: rest => some ([], rest)
  | _ + 1, _, [] => none
  | n + 1, itBits, b :: rest =>
    let bit := b.testBit itBits
    if n = 0 then some ([bit], rest)
    else if itBits = 0 then
      (takeBits n 7 rest).map (fun p => (bit :: p.1, p.2))
    else
      (takeBits n (itBits - 1) (b :: rest)).map (fun p => (bit :: p.1, p.2))

/-- One iteration of the `do`-while in `header::deserialize`: read the
symbol byte, the code bit-length byte — assigned to a signed `int16_t`
through `char`, so length patterns `≥ 128` are negative and the bit loop is
skipped — then the code bits. -/
def readEntry : List Nat → Option ((Nat × List Bool) × List Nat)
  | sym :: cnt :: rest =>
    let n := if cnt < 128 then cnt else 0
    (takeBits n 7 rest).map (fun p => ((sym, p.1), p.2))
  | _ => none

/-- The `do`-while loop of `header::deserialize` (compression.cpp lines
278-297), which runs entry by entry until the iterator lands exactly on the
end of the header slice.  Fuel bounds the iteration count; the slice length
is always sufficient because every entry consumes at least three bytes.
An empty slice is dereferenced unconditionally by the `do`-while (undefined
behaviour), modelled as `none`. -/
def deserializeLoop : List Nat → Nat → Option (List (Nat × List Bool))
  | _, 0 => none
  | stream, fuel + 1 =>
    match readEntry stream with
    | none => none
    | some (e, rest') =>
      if rest' = [] then some [e]
      else (deserializeLoop rest' fuel).map (e :: ·)

/-- The `(symbol, code)` entries read from a header slice, in stream order. -/
def deserializeEntries (stream : List Nat) : Option (List (Nat × List Bool)) :=
  deserializeLoop stream stream.length

/-- Insertion into the `std::map<char, std::vector<bool>>` built by
`code[byte].push_back(bit)`: sorted by `charLt`; a duplicate symbol appends
its bits to the existing entry. -/
def mapAppendCode : List (Nat × List Bool) → Nat → List Bool → List (Nat × List Bool)
  | [], b, bits => [(b, bits)]
  | (k, v) :: rest, b, bits =>
    if b = k then (k, v ++ bits) :: rest
    else if charLt b k then (b, bits) :: (k, v) :: rest
    else (k, v) :: mapAppendCode rest b bits

/-- The code map accumulated over all entries in stream order. -/
def codeMapOfEntries (entries : List (Nat × List Bool)) : List (Nat × List Bool) :=
  entries.foldl (fun m e => mapAppendCode m e.1 e.2) []

/-- `compression::huffman::header::deserialize` (compression.cpp lines
271-300). -/
def header.deserialize (stream : List Nat) : Option (List (Nat × List Bool)) :=
  (deserializeEntries stream).map codeMapOfEntries

/-- Decoder-side trie node: `node_t` as used by `decode`, where children are
created on demand and may be absent (`nullptr`). -/
inductive Htrie
  | node (byte : Nat) (child0 child1 : Option Htrie)

/-- Trie insertion loop of `decode` (compression.cpp lines 516-527): walk the
code's bits from the root, creating a missing child as a fresh node whose
byte is the entry's symbol exactly when the current bit is the last one
(`itBits == pair.second.end() - 1`) and 0 otherwise; an already-existing
node's byte is never updated. -/
def trieInsert : Htrie → List Bool → Nat → Htrie
  | t, [], _ => t
  | Htrie.node b c0 c1, bit :: rest, sym =>
    if bit then
      let child := match c1 with
        | some c => c
        | none => Htrie.node (if rest.isEmpty then sym else 0) none none
      Htrie.node b c0 (some (trieInsert child rest sym))
    else
      let child := match c0 with
        | some c => c
        | none => Htrie.node (if rest.isEmpty then sym else 0) none none
      Htrie.node b (some (trieInsert child rest sym)) c1

/-- The trie built from the deserialized code map, starting from the root
`new node_t(nullptr, nullptr)` (byte 0, no children), inserting the map's
entries in map iteration order. -/
def buildTrie (code : List (Nat × List Bool)) : Htrie :=
  code.foldl (fun t e => trieInsert t e.2 e.1) (Htrie.node 0 none none)

/-- The `while (true)` walk of `decode` (compression.cpp lines 533-554).
Each iteration either: emits the current node's byte and resets to the root
if either child is missing (`continue`, consuming no input bit), or steps to
the child selected by the current payload bit and then advances the bit
cursor, breaking out — and returning the bytes emitted so far — when the
byte iterator reaches the end.  Dereferencing the byte iterator when it
already sits at the end is undefined behaviour, modelled as `none`; `none`
is also returned when the fuel runs out, so a walk that returns `none` for
every fuel is a non-terminating C++ loop. -/
def walkLoop (root : Htrie) (payload : List Nat) :
    Htrie → Nat → Nat → List Nat → Nat → Option (List Nat)
  | _, _, _, _, 0 => none
  | Htrie.node b c0 c1, byteIdx, itBits, out, fuel + 1 =>
    match c0, c1 with
    | some n0, some n1 =>
      if byteIdx < payload.length then
        if itBits = 0 then
          if byteIdx + 1 = payload.length then some out
          else
            walkLoop root payload
              (if (payload.getD byteIdx 0).testBit itBits then n1 else n0) (byteIdx + 1) 7 out fuel
        else
          walkLoop root payload
            (if (payload.getD byteIdx 0).testBit itBits then n1 else n0) byteIdx (itBits - 1) out fuel
      else none
    | _, _ => walkLoop root payload root byteIdx itBits (out ++ [b]) fuel

/-- Header parsing of `decode` (compression.cpp lines 494-531): reads the
32-bit original size from bytes 0-3 and the 16-bit header size from bytes
4-5 (both big-endian, assembled with sign-extension masked away), hands the
slice `[6, headerSize + 4)` to `header::deserialize`, builds the trie, and
positions the payload iterator at byte `headerSize + 4`.  Inputs shorter
than 6 bytes, or whose declared header size makes the slice bounds invalid,
dereference out of range (undefined behaviour): `none`. -/
def huffSetup (dataIn : List Nat) : Option (Htrie × List Nat × Nat) :=
  match dataIn with
  | b0 :: b1 :: b2 :: b3 :: b4 :: b5 :: _ =>
    let origSize := (b0 % 256) * 2 ^ 24 + (b1 % 256) * 2 ^ 16 + (b2 % 256) * 2 ^ 8 + b3 % 256
    let headerSize := (b4 % 256) * 256 + b5 % 256
    if 2 ≤ headerSize ∧ headerSize + 4 ≤ dataIn.length then
      match header.deserialize ((dataIn.drop 6).take (headerSize - 2)) with
      | none => none
      | some code =>
        some (buildTrie code, dataIn.drop (headerSize + 4), origSize)
    else none
  | _ => none

/-- `compression::huffman::decode` (compression.cpp lines 494-565): header
parsing, trie walk, then truncation of the output to the declared original
size (the `while (dataOut.size() > originalDataSize)` loop).  `fuel` bounds
the number of walk iterations. -/
def huffman.decode (dataIn : List Nat) (fuel : Nat) : Option (List Nat) :=
  match huffSetup dataIn with
  | none => none
  | some (root, payload, origSize) =>
    (walkLoop root payload root 0 7 [] fuel).map (fun out => out.take origSize)

/-! ## Single-symbol and empty-input behaviour (claims C1, C3, C8) -/

/-- If the trie root has no children — which happens exactly when every code
in the table is empty, e.g. for a single-symbol alphabet — every iteration of
the decode walk takes the emit-and-`continue` branch without consuming any
input, so the loop never terminates: the fuelled walk returns `none` for
every fuel. -/
theorem walkLoop_rootLeaf_diverges (b : Nat) (payload : List Nat) (bi ib : Nat) :
    ∀ (fuel : Nat) (out : List Nat),
      walkLoop (Htrie.node b none none) payload (Htrie.node b none none) bi ib out fuel = none := by
  intro fuel
  induction fuel with
  | zero => intro out; rfl
  | succ n ih => intro out; exact ih (out ++ [b])

/-- C1: the Huffman round trip fails.  Encoding the single-symbol input
`"AAAA"` succeeds, but decoding the resulting stream never terminates: the
code table contains only the empty code, so the rebuilt trie root has no
children, carries byte 0, and the walk loops forever emitting 0 without
consuming input (no fuel makes the fuelled walk return). -/
theorem huffman_roundtrip_fails_single_symbol :
    huffman.encode [65, 65, 65, 65] = some [0, 0, 0, 4, 0, 5, 65, 0, 0, 0] ∧
      ∀ fuel : Nat, huffman.decode [0, 0, 0, 4, 0, 5, 65, 0, 0, 0] fuel ≠ some [65, 65, 65, 65] := by
  refine ⟨by decide, ?_⟩
  intro fuel
  have hsetup : huffSetup [0, 0, 0, 4, 0, 5, 65, 0, 0, 0]
      = some (Htrie.node 0 none none, [0], 4) := rfl
  simp only [huffman.decode, hsetup, walkLoop_rootLeaf_diverges, Option.map_none']
  exact fun h => Option.noConfusion h

/-- C3: encoding `"AAAA"` produces the 4-byte big-endian original length 4,
a header-length field of 5, and a code table with the single entry
`('A', bit-length 0)` serialized as the three bytes `[65, 0, 0]`, followed by
the single zero payload byte — but `decode` applied to that output does not
terminate (it returns `none` at every fuel), instead of reproducing
`"AAAA"`: the rebuilt trie root is childless with byte 0, so the walk of
compression.cpp lines 533-554 loops forever. -/
theorem huffman_single_symbol_decode_diverges :
    huffman.encode [65, 65, 65, 65] = some [0, 0, 0, 4, 0, 5, 65, 0, 0, 0] ∧
      buildTree (initialNodes [65, 65, 65, 65]) = some (node_t.leaf 65 4) ∧
      (node_t.leaf 65 4).getCode = [(65, [])] ∧
      headerEntry 65 [] = [65, 0, 0] ∧
      ∀ fuel : Nat, huffman.decode [0, 0, 0, 4, 0, 5, 65, 0, 0, 0] fuel = none := by
  refine ⟨by decide, by decide, by decide, by decide, ?_⟩
  intro fuel
  have hsetup : huffSetup [0, 0, 0, 4, 0, 5, 65, 0, 0, 0]
      = some (Htrie.node 0 none none, [0], 4) := rfl
  simp only [huffman.decode, hsetup, walkLoop_rootLeaf_diverges, Option.map_none']

/-- C8: on the empty input the frequency map and hence the node vector are
empty, so `compression::huffman::encode` reads `treeNodes[0]` out of bounds
(compression.cpp line 338) instead of returning a stream with original
length 0 and an empty code table: the model yields no output at all. -/
theorem huffman_encode_empty_out_of_bounds :
    initialNodes [] = [] ∧ buildTree ([] : List node_t) = none ∧
      huffman.encode [] = none := by
  exact ⟨rfl, rfl, rfl⟩

/-! ## Truncated-stream behaviour (claim C7) -/

/-- Fuel monotonicity of the decode walk: once the loop terminates with a
result, more fuel gives the same result. -/
theorem walkLoop_mono (root : Htrie) (payload : List Nat) :
    ∀ (fuel : Nat) (node : Htrie) (byteIdx itBits : Nat) (out v : List Nat),
      walkLoop root payload node byteIdx itBits out fuel = some v →
      walkLoop root payload node byteIdx itBits out (fuel + 1) = some v := by
  intro fuel
  induction fuel with
  | zero => intro node bi ib out v h; exact absurd h (by simp [walkLoop])
  | succ n ih =>
    intro node bi ib out v h
    match node with
    | Htrie.node b c0 c1 =>
      match hc0 : c0, hc1 : c1 with
      | some n0, some n1 =>
        simp only [walkLoop] at h ⊢
        by_cases hlt : bi < payload.length
        · simp only [if_pos hlt] at h ⊢
          by_cases hib : ib = 0
          · simp only [hib, if_pos rfl] at h ⊢
            by_cases hend : bi + 1 = payload.length
            · simpa [hend] using h
            · simp only [if_neg hend] at h ⊢
              exact ih _ _ _ _ _ h
          · simp only [if_neg hib] at h ⊢
            exact ih _ _ _ _ _ h
        · simp only [if_neg hlt] at h
          exact absurd h (by simp)
      | none, _ =>
        simp only [walkLoop] at h ⊢
        exact ih _ _ _ _ _ h
      | some _, none =>
        simp only [walkLoop] at h ⊢
        exact ih _ _ _ _ _ h

theorem walkLoop_mono_le (root : Htrie) (payload : List Nat)
    (node : Htrie) (byteIdx itBits : Nat) (out v : List Nat) :
    ∀ fuel fuel' : Nat, fuel ≤ fuel' →
      walkLoop root payload node byteIdx itBits out fuel = some v →
      walkLoop root payload node byteIdx itBits out fuel' = some v := by
  intro fuel fuel' hle
  induction fuel' with
  | zero =>
    intro h
    have : fuel = 0 := Nat.le_zero.mp hle
    exact this ▸ h
  | succ m ih =>
    intro h
    rcases Nat.lt_or_ge fuel (m + 1) with hlt | hge
    · exact walkLoop_mono root payload m _ _ _ _ _ (ih (Nat.lt_succ_iff.mp hlt) h)
    · have : fuel = m + 1 := Nat.le_antisymm hle hge
      exact this ▸ h

/-- The encoding of `"ABBBBBBBBB"` with its final payload byte removed. -/
def truncatedStream : List Nat :=
  [0, 0, 0, 10, 0, 8, 65, 1, 0, 66, 1, 128, 127]

/-- C7 counterexample: `compression::huffman::decode` has no error channel
at all (it returns a plain `std::vector<char>`), and on a payload that is
exhausted before `originalLength` symbols are emitted it simply breaks out
of the walk and returns the bytes decoded so far: the truncated stream for
`"ABBBBBBBBB"` (declared length 10) silently decodes to the 7-byte
`"ABBBBBB"` — a wrong result in place of a `MalformedInput` failure. -/
theorem huffman_decode_truncated_no_error :
    huffman.decode truncatedStream 64 = some [65, 66, 66, 66, 66, 66, 66] ∧
      [65, 66, 66, 66, 66, 66, 66] ≠ [65, 66, 66, 66, 66, 66, 66, 66, 66, 66] := by
  exact ⟨by decide, by decide⟩

/-- C7 amended: decoding a truncated Huffman stream does not fail with a
typed error — the implementation has no failure path; the walk stops at
input exhaustion and the bytes decoded so far (fewer than the declared
original length) are returned as the result.  Concretely, `truncatedStream`
is the encoding of `"ABBBBBBBBB"` (original length 10) missing its last
payload byte, and for every sufficient fuel the decoder terminates
normally with the 7-byte output `"ABBBBBB"`. -/
theorem huffman_decode_truncated_silent (fuel : Nat) (h : 64 ≤ fuel) :
    huffman.encode [65, 66, 66, 66, 66, 66, 66, 66, 66, 66]
        = some (truncatedStream ++ [192]) ∧
      huffman.decode truncatedStream fuel = some [65, 66, 66, 66, 66, 66, 66] ∧
      ([65, 66, 66, 66, 66, 66, 66] : List Nat).length
        < ([65, 66, 66, 66, 66, 66, 66, 66, 66, 66] : List Nat).length := by
  refine ⟨by decide, ?_, by decide⟩
  have hsetup : huffSetup truncatedStream
      = some (Htrie.node 0 (some (Htrie.node 65 none none))
          (some (Htrie.node 66 none none)), [127], 10) := rfl
  have h64 : walkLoop
      (Htrie.node 0 (some (Htrie.node 65 none none)) (some (Htrie.node 66 none none))) [127]
      (Htrie.node 0 (some (Htrie.node 65 none none)) (some (Htrie.node 66 none none)))
      0 7 [] 64 = some [65, 66, 66, 66, 66, 66, 66] := by decide
  have hw := walkLoop_mono_le _ _ _ _ _ _ _ 64 fuel h h64
  simp only [huffman.decode, hsetup, hw, Option.map_some']
  rfl

/-- Witness for `huffman_decode_truncated_silent` at fuel 64. -/
theorem huffman_decode_truncated_silent_witness :
    huffman.decode truncatedStream 64 = some [65, 66, 66, 66, 66, 66, 66] :=
  (huffman_decode_truncated_silent 64 (by decide)).2.1

/-! ## Header length field (claim C4) -/

/-- The serialized header is the big-endian halves of `entries.length + 2`
followed by the entry bytes. -/
theorem header_serialize_eq (code : List (Nat × List Bool)) :
    header.serialize code
      = (((headerEntries code).length + 2) >>> 8) % 256
        :: ((headerEntries code).length + 2) % 256 :: headerEntries code := by
  simp [header.serialize]

/-- C4 counterexample: for the input `"AAAA"` the encoder's output stores the
value 5 in the 2-byte field at offsets 4-5, while the code-table entries
starting at offset 6 occupy only 3 bytes (`[65, 0, 0]`), and the bit-packed
payload (the final zero byte) begins at offset 9 = 4 + 5, not at 6 + 5: the
stored count includes the two length bytes themselves. -/
theorem huffman_header_length_field_counterexample :
    huffman.encode [65, 65, 65, 65] = some [0, 0, 0, 4, 0, 5, 65, 0, 0, 0] ∧
      headerEntries (node_t.leaf 65 4).getCode = [65, 0, 0] ∧
      ([0, 0, 0, 4, 0, 5, 65, 0, 0, 0] : List Nat).getD 4 0 * 256
          + ([0, 0, 0, 4, 0, 5, 65, 0, 0, 0] : List Nat).getD 5 0 = 5 ∧
      (5 : Nat) ≠ (headerEntries (node_t.leaf 65 4).getCode).length ∧
      ([0, 0, 0, 4, 0, 5, 65, 0, 0, 0] : List Nat).length < 6 + 5 := by
  exact ⟨by decide, by decide, by decide, by decide, by decide⟩

/-- C4 amended: in every output of `compression::huffman::encode`, the 2-byte
big-endian integer at offsets 4-5 equals the number of bytes occupied by the
code-table entries starting at offset 6 **plus 2** (it counts the two length
bytes themselves, being `char(header.size() + 2)` at compression.cpp lines
224-225), and the bit-packed payload begins at byte offset 4 + that stored
value (equivalently 6 + the entry byte count). -/
theorem huffman_header_length_field (dataIn : List Nat) (t : node_t)
    (ht : buildTree (initialNodes dataIn) = some t)
    (hb : (headerEntries t.getCode).length + 2 < 65536) :
    ∃ out, huffman.encode dataIn = some out ∧
      out.getD 4 0 * 256 + out.getD 5 0 = (headerEntries t.getCode).length + 2 ∧
      (out.drop 6).take (headerEntries t.getCode).length = headerEntries t.getCode ∧
      out.drop (4 + ((headerEntries t.getCode).length + 2))
        = packPayload (payloadBits t.getCode dataIn) := by
  refine ⟨be32 dataIn.length ++ header.serialize t.getCode
    ++ packPayload (payloadBits t.getCode dataIn), ?_, ?_, ?_, ?_⟩
  · simp [huffman.encode, ht]
  · rw [header_serialize_eq]
    show ((((headerEntries t.getCode).length + 2) >>> 8) % 256) * 256
        + ((headerEntries t.getCode).length + 2) % 256
      = (headerEntries t.getCode).length + 2
    rw [Nat.shiftRight_eq_div_pow]
    omega
  · rw [header_serialize_eq]
    show (headerEntries t.getCode ++ packPayload (payloadBits t.getCode dataIn)).take
        (headerEntries t.getCode).length = headerEntries t.getCode
    exact List.take_left' rfl
  · rw [header_serialize_eq,
      show 4 + ((headerEntries t.getCode).length + 2) = (headerEntries t.getCode).length + 6
        from by omega]
    show (headerEntries t.getCode ++ packPayload (payloadBits t.getCode dataIn)).drop
        (headerEntries t.getCode).length = packPayload (payloadBits t.getCode dataIn)
    exact List.drop_left' rfl

/-- Witness for `huffman_header_length_field` at the input `"ABB"`. -/
theorem huffman_header_length_field_witness :
    buildTree (initialNodes [65, 66, 66])
        = some (node_t.internal (node_t.leaf 65 1) (node_t.leaf 66 2) 3) ∧
      ∃ out, huffman.encode [65, 66, 66] = some out ∧
        out.getD 4 0 * 256 + out.getD 5 0
          = (headerEntries (node_t.internal (node_t.leaf 65 1) (node_t.leaf 66 2) 3).getCode).length
            + 2 ∧
        (out.drop 6).take
            (headerEntries (node_t.internal (node_t.leaf 65 1) (node_t.leaf 66 2) 3).getCode).length
          = headerEntries (node_t.internal (node_t.leaf 65 1) (node_t.leaf 66 2) 3).getCode ∧
        out.drop (4 + ((headerEntries
            (node_t.internal (node_t.leaf 65 1) (node_t.leaf 66 2) 3).getCode).length + 2))
          = packPayload (payloadBits
              (node_t.internal (node_t.leaf 65 1) (node_t.leaf 66 2) 3).getCode [65, 66, 66]) :=
  ⟨by decide, huffman_header_length_field [65, 66, 66]
    (node_t.internal (node_t.leaf 65 1) (node_t.leaf 66 2) 3) (by decide) (by decide)⟩

/-! ## Header entry layout (claim C5) -/

/-- Value of a bit list placed MSB-first with its first bit at position `k`:
`msbVal [b0, ..., bm] k = Σ bi · 2^(k-i)`. -/
def msbVal : List Bool → Nat → Nat
  | [], _ => 0
  | b :: rest, k => (if b then 2 ^ k else 0) + msbVal rest (k - 1)

theorem testBit_two_pow_add_self (n x : Nat) (h : x < 2 ^ n) :
    (2 ^ n + x).testBit n = true := by
  have h1 : (2 ^ n + x) / 2 ^ n = 1 := by
    rw [Nat.add_comm, Nat.add_div_right x (Nat.pos_pow_of_pos n (by norm_num)),
      Nat.div_eq_of_lt h]
  rw [Nat.testBit_to_div_mod, h1]
  decide

theorem msbVal_lt (bits : List Bool) : ∀ k : Nat, bits.length ≤ k + 1 →
    msbVal bits k < 2 ^ (k + 1) := by
  induction bits with
  | nil =>
    intro k hk
    exact Nat.pos_pow_of_pos (k + 1) (by norm_num)
  | cons b rest ih =>
    intro k hk
    match k with
    | 0 =>
      have : rest = [] := by
        simp only [List.length_cons] at hk
        exact List.length_eq_zero.mp (by omega)
      subst this
      cases b <;> simp [msbVal]
    | k' + 1 =>
      have hm : msbVal rest k' < 2 ^ (k' + 1) := ih k' (by simp at hk; omega)
      have h2 : (2 : Nat) ^ (k' + 1 + 1) = 2 ^ (k' + 1) + 2 ^ (k' + 1) := by ring
      simp only [msbVal, Nat.add_sub_cancel]
      cases b <;> simp <;> omega

/-- The tail value of a one-shorter bit list is below the current power. -/
theorem msbVal_lt' (rest : List Bool) (k : Nat) (h : rest.length ≤ k) :
    msbVal rest (k - 1) < 2 ^ k := by
  match k with
  | 0 =>
    have : rest = [] := List.length_eq_zero.mp (by omega)
    subst this
    simp [msbVal]
  | k' + 1 => exact msbVal_lt rest k' (by omega)

/-- Bit `i` of the packed value sits at position `k - i`: the packing is
MSB-first. -/
theorem msbVal_testBit (bits : List Bool) : ∀ k i : Nat, bits.length ≤ k + 1 →
    i < bits.length → (msbVal bits k).testBit (k - i) = bits.getD i false := by
  induction bits with
  | nil => intro k i _ hi; simp at hi
  | cons b rest ih =>
    intro k i hk hi
    match i with
    | 0 =>
      have hm : msbVal rest (k - 1) < 2 ^ k :=
        msbVal_lt' rest k (by simp at hk; omega)
      simp only [msbVal, Nat.sub_zero, List.getD_cons_zero]
      cases b
      · simpa using Nat.testBit_eq_false_of_lt hm
      · simpa using testBit_two_pow_add_self k _ hm
    | i' + 1 =>
      have hkpos : 1 ≤ k := by simp at hk hi; omega
      have hlt : k - (i' + 1) < k := by simp at hi; omega
      have htail : (msbVal rest (k - 1)).testBit ((k - 1) - i') = rest.getD i' false :=
        ih (k - 1) i' (by simp at hk; omega) (by simp at hi; omega)
      have harith : (k - 1) - i' = k - (i' + 1) := by omega
      simp only [msbVal, List.getD_cons_succ]
      cases b
      · simpa [harith] using htail
      · rw [if_pos rfl, Nat.testBit_two_pow_add_gt hlt, ← harith, htail]

/-- A nonempty bit list of at most `k + 1` bits is packed by the serializer
loop into the single byte holding its `msbVal`. -/
theorem packBitsAux_small (bits : List Bool) : ∀ acc k : Nat, bits ≠ [] →
    bits.length ≤ k + 1 → packBitsAux bits acc k = [acc + msbVal bits k] := by
  induction bits with
  | nil => intro acc k h _; exact absurd rfl h
  | cons b rest ih =>
    intro acc k _ hk
    by_cases hr : rest = []
    · subst hr
      by_cases hzero : k = 0
      · subst hzero
        simp [packBitsAux, msbVal]
      · simp [packBitsAux, msbVal, hzero, Nat.add_assoc]
    · have hzero : k ≠ 0 := by
        have : 1 ≤ rest.length := List.length_pos.mpr hr
        simp at hk; omega
      have := ih (acc + (if b then 2 ^ k else 0)) (k - 1) hr (by simp at hk; omega)
      simp only [packBitsAux, if_neg hzero, this, msbVal]
      rw [Nat.add_assoc]

/-- A bit list longer than `k + 1` bits fills the current byte with its
first `k + 1` bits and continues with a fresh byte. -/
theorem packBitsAux_step : ∀ (k : Nat) (bits : List Bool) (acc : Nat),
    k + 1 < bits.length →
      packBitsAux bits acc k
        = (acc + msbVal (bits.take (k + 1)) k) :: packBitsAux (bits.drop (k + 1)) 0 7 := by
  intro k
  induction k with
  | zero =>
    intro bits acc h
    match bits with
    | [] => simp at h
    | [b] => simp at h
    | b :: r :: rs => simp [packBitsAux, msbVal]
  | succ k ihk =>
    intro bits acc h
    match bits with
    | [] => simp at h
    | b :: rest =>
      have hlen : k + 1 < rest.length := by simp at h; omega
      have := ihk rest (acc + (if b then 2 ^ (k + 1) else 0)) hlen
      simp only [packBitsAux, if_neg (Nat.succ_ne_zero k),
        Nat.add_sub_cancel, this, List.take_succ_cons, List.drop_succ_cons, msbVal]
      rw [Nat.add_assoc]

theorem getD_take (l : List Bool) (n i : Nat) (d : Bool) (h : i < n) :
    (l.take n).getD i d = l.getD i d := by
  rw [List.getD_eq_getElem?_getD, List.getD_eq_getElem?_getD, List.getElem?_take, if_pos h]

theorem getD_drop (l : List Bool) (n i : Nat) (d : Bool) :
    (l.drop n).getD i d = l.getD (n + i) d := by
  rw [List.getD_eq_getElem?_getD, List.getD_eq_getElem?_getD, List.getElem?_drop]

/-- The serializer emits `max 1 ⌈L/8⌉` data bytes for an `L`-bit code: one
byte is pushed unconditionally before the bit loop, so a 0-bit code still
occupies one data byte. -/
theorem packCodeBytes_length_aux : ∀ (n : Nat) (bits : List Bool), bits.length ≤ n →
    (packCodeBytes bits).length = max 1 ((bits.length + 7) / 8) := by
  intro n
  induction n with
  | zero =>
    intro bits hn
    have : bits = [] := List.length_eq_zero.mp (by omega)
    subst this
    rfl
  | succ n ih =>
    intro bits hn
    by_cases hnil : bits = []
    · subst hnil; rfl
    · by_cases hle : bits.length ≤ 8
      · rw [packCodeBytes, packBitsAux_small bits 0 7 hnil (by omega)]
        have h1 : 1 ≤ bits.length := List.length_pos.mpr hnil
        simp only [List.length_cons, List.length_nil]
        omega
      · rw [packCodeBytes, packBitsAux_step 7 bits 0 (by omega)]
        have hd : (List.drop 8 bits).length ≤ n := by
          simp only [List.length_drop]; omega
        have := ih (List.drop 8 bits) hd
        rw [packCodeBytes] at this
        simp only [List.length_cons, this, List.length_drop]
        omega

theorem packCodeBytes_length (bits : List Bool) :
    (packCodeBytes bits).length = max 1 ((bits.length + 7) / 8) :=
  packCodeBytes_length_aux bits.length bits (Nat.le_refl _)

/-- The code bits are packed MSB-first: bit `i` of the code is bit
`7 - i % 8` of data byte `i / 8`. -/
theorem packCodeBytes_testBit_aux : ∀ (n : Nat) (bits : List Bool), bits.length ≤ n →
    ∀ i : Nat, i < bits.length →
      ((packCodeBytes bits).getD (i / 8) 0).testBit (7 - i % 8) = bits.getD i false := by
  intro n
  induction n with
  | zero => intro bits hn i hi; omega
  | succ n ih =>
    intro bits hn i hi
    have hnil : bits ≠ [] := by
      intro h; subst h; simp at hi
    by_cases hle : bits.length ≤ 8
    · rw [packCodeBytes, packBitsAux_small bits 0 7 hnil (by omega),
        Nat.div_eq_of_lt (by omega), Nat.mod_eq_of_lt (by omega)]
      simpa using msbVal_testBit bits 7 i (by omega) hi
    · rw [packCodeBytes, packBitsAux_step 7 bits 0 (by omega)]
      by_cases hi8 : i < 8
      · rw [Nat.div_eq_of_lt hi8, Nat.mod_eq_of_lt hi8, List.getD_cons_zero]
        have htake : (List.take 8 bits).length = 8 := by
          simp only [List.length_take]; omega
        have := msbVal_testBit (List.take 8 bits) 7 i (by omega) (by omega)
        rw [getD_take bits 8 i false hi8] at this
        simpa using this
      · rw [show i / 8 = (i - 8) / 8 + 1 from by omega, List.getD_cons_succ,
          show 7 - i % 8 = 7 - (i - 8) % 8 from by omega]
        have hd : (List.drop 8 bits).length ≤ n := by
          simp only [List.length_drop]; omega
        have hi' : i - 8 < (List.drop 8 bits).length := by
          simp only [List.length_drop]; omega
        have := ih (List.drop 8 bits) hd (i - 8) hi'
        rw [packCodeBytes] at this
        rw [this, getD_drop bits 8 (i - 8) false, show 8 + (i - 8) = i from by omega]

/-- C5 counterexample: an entry for a code of bit-length 0 occupies 3 header
bytes, not the 2 the specification claims: `serialize` pushes a data byte
unconditionally (compression.cpp line 207) before the bit loop, so the
entry for `('A', empty code)` is `[65, 0, 0]`. -/
theorem header_entry_zero_bits_counterexample :
    headerEntry 65 [] = [65, 0, 0] ∧ (headerEntry 65 []).length ≠ 2 := by
  exact ⟨by decide, by decide⟩

/-- C5 amended: for each `(symbol, code)` pair, `header::serialize` emits
1 symbol byte, 1 bit-length byte (the length truncated to a `char`), and
then exactly `max 1 ⌈bitlength/8⌉` data bytes holding the code bits packed
MSB-first (bit `i` of the code is bit `7 - i % 8` of data byte `i / 8`):
an entry with bit-length 0 contributes **one** zero data byte (3 bytes in
total for that entry), not zero data bytes. -/
theorem header_entry_layout (sym : Nat) (bits : List Bool) :
    headerEntry sym bits = sym :: (bits.length % 256) :: packCodeBytes bits ∧
      (packCodeBytes bits).length = max 1 ((bits.length + 7) / 8) ∧
      headerEntry sym [] = [sym, 0, 0] ∧
      ∀ i : Nat, i < bits.length →
        ((packCodeBytes bits).getD (i / 8) 0).testBit (7 - i % 8) = bits.getD i false :=
  ⟨rfl, packCodeBytes_length bits, rfl,
    fun i hi => packCodeBytes_testBit_aux bits.length bits (Nat.le_refl _) i hi⟩

/-- Witness for `header_entry_layout` at `('B', [true])`: the entry is
`[66, 1, 128]` and bit 0 of the code sits at bit 7 of the data byte. -/
theorem header_entry_layout_witness :
    headerEntry 66 [true] = 66 :: (([true] : List Bool).length % 256) :: packCodeBytes [true] ∧
      (0 : Nat) < ([true] : List Bool).length ∧
      ((packCodeBytes [true]).getD (0 / 8) 0).testBit (7 - 0 % 8) = ([true] : List Bool).getD 0 false :=
  ⟨(header_entry_layout 66 [true]).1, by decide,
    (header_entry_layout 66 [true]).2.2.2 0 (by decide)⟩

/-! ## Prefix-freeness of the code table (claim C9) -/

/-- Every code recorded under path `p` extends `p`. -/
theorem getCodeList_extends (t : node_t) : ∀ (p : List Bool) (s : Nat) (c : List Bool),
    (s, c) ∈ getCodeList t p → ∃ u, p ++ u = c := by
  induction t with
  | leaf b o =>
    intro p s c hmem
    simp only [getCodeList, List.mem_singleton, Prod.mk.injEq] at hmem
    exact ⟨[], by simp [hmem.2]⟩
  | internal c0 c1 o ih0 ih1 =>
    intro p s c hmem
    rcases List.mem_append.mp hmem with h | h
    · obtain ⟨u, hu⟩ := ih0 (p ++ [false]) s c h
      exact ⟨[false] ++ u, by simpa [List.append_assoc] using hu⟩
    · obtain ⟨u, hu⟩ := ih1 (p ++ [true]) s c h
      exact ⟨[true] ++ u, by simpa [List.append_assoc] using hu⟩

/-- Two traversal entries whose codes are prefix-comparable are the same
entry: distinct leaves lie in different subtrees at the first divergence
point, where their paths carry opposite bits. -/
theorem getCodeList_comparable_eq (t : node_t) : ∀ (p : List Bool) (s s' : Nat)
    (c c' : List Bool), (s, c) ∈ getCodeList t p → (s', c') ∈ getCodeList t p →
    (∃ w, c ++ w = c') → c = c' ∧ s = s' := by
  induction t with
  | leaf b o =>
    intro p s s' c c' h1 h2 _
    simp only [getCodeList, List.mem_singleton, Prod.mk.injEq] at h1 h2
    exact ⟨h1.2.trans h2.2.symm, h1.1.trans h2.1.symm⟩
  | internal c0 c1 o ih0 ih1 =>
    intro p s s' c c' h1 h2 hpre
    rcases List.mem_append.mp h1 with hl1 | hr1 <;>
      rcases List.mem_append.mp h2 with hl2 | hr2
    · exact ih0 (p ++ [false]) s s' c c' hl1 hl2 hpre
    · obtain ⟨u, hu⟩ := getCodeList_extends c0 (p ++ [false]) s c hl1
      obtain ⟨v, hv⟩ := getCodeList_extends c1 (p ++ [true]) s' c' hr2
      obtain ⟨w, hw⟩ := hpre
      exfalso
      have heq : p ++ ([false] ++ (u ++ w)) = p ++ ([true] ++ v) := by
        have := hw
        rw [← hu, ← hv] at this
        simp only [List.append_assoc] at this
        exact this
      have := List.append_cancel_left heq
      simp at this
    · obtain ⟨u, hu⟩ := getCodeList_extends c1 (p ++ [true]) s c hr1
      obtain ⟨v, hv⟩ := getCodeList_extends c0 (p ++ [false]) s' c' hl2
      obtain ⟨w, hw⟩ := hpre
      exfalso
      have heq : p ++ ([true] ++ (u ++ w)) = p ++ ([false] ++ v) := by
        have := hw
        rw [← hu, ← hv] at this
        simp only [List.append_assoc] at this
        exact this
      have := List.append_cancel_left heq
      simp at this
    · exact ih1 (p ++ [true]) s s' c c' hr1 hr2 hpre

/-- Entries of the overwriting map insertion come from the inserted pair or
the previous map. -/
theorem mapInsertCode_mem : ∀ (m : List (Nat × List Bool)) (b : Nat) (bits : List Bool)
    (x : Nat × List Bool), x ∈ mapInsertCode m b bits → x ∈ m ∨ x = (b, bits) := by
  intro m
  induction m with
  | nil =>
    intro b bits x hx
    simp only [mapInsertCode, List.mem_singleton] at hx
    exact Or.inr hx
  | cons kv rest ih =>
    intro b bits x hx
    match kv with
    | (k, v) =>
      by_cases hbk : b = k
      · subst hbk
        simp only [mapInsertCode, if_pos rfl] at hx
        rcases List.mem_cons.mp hx with h | h
        · exact Or.inr h
        · exact Or.inl (List.mem_cons_of_mem _ h)
      · by_cases hlt : charLt b k
        · simp only [mapInsertCode, if_neg hbk, if_pos hlt] at hx
          rcases List.mem_cons.mp hx with h | h
          · exact Or.inr h
          · exact Or.inl h
        · simp only [mapInsertCode, if_neg hbk, if_neg hlt] at hx
          rcases List.mem_cons.mp hx with h | h
          · exact Or.inl (h ▸ List.mem_cons_self _ _)
          · rcases ih b bits x h with h' | h'
            · exact Or.inl (List.mem_cons_of_mem _ h')
            · exact Or.inr h'

/-- Entries of the folded map come from the initial map or the entry list. -/
theorem foldl_mapInsertCode_mem : ∀ (entries : List (Nat × List Bool))
    (m : List (Nat × List Bool)) (x : Nat × List Bool),
    x ∈ List.foldl (fun m p => mapInsertCode m p.1 p.2) m entries → x ∈ m ∨ x ∈ entries := by
  intro entries
  induction entries with
  | nil => intro m x hx; exact Or.inl hx
  | cons e es ih =>
    intro m x hx
    rcases ih (mapInsertCode m e.1 e.2) x hx with h | h
    · rcases mapInsertCode_mem m e.1 e.2 x h with h' | h'
      · exact Or.inl h'
      · exact Or.inr (h' ▸ List.mem_cons_self _ _)
    · exact Or.inr (List.mem_cons_of_mem _ h)

/-- Every pair in the code table is a traversal entry. -/
theorem getCode_mem (t : node_t) (x : Nat × List Bool) (hx : x ∈ t.getCode) :
    x ∈ getCodeList t [] := by
  rcases foldl_mapInsertCode_mem (getCodeList t []) [] x hx with h | h
  · simp at h
  · exact h

/-- C9: the code table produced inside `compression::huffman::encode` is
prefix-free: whenever the table exists (the input is nonempty), the codes of
two distinct symbols are never prefix-comparable.  The codes are root-to-leaf
paths of a tree in which every internal node has exactly two children, so the
paths of distinct leaves diverge with opposite bits. -/
theorem huffman_code_table_prefixFree (dataIn : List Nat)
    (table : List (Nat × List Bool)) (h : huffCodeTable dataIn = some table) :
    ∀ (s1 : Nat) (c1 : List Bool) (s2 : Nat) (c2 : List Bool),
      (s1, c1) ∈ table → (s2, c2) ∈ table → s1 ≠ s2 → ¬ (c1 <+: c2) := by
  intro s1 c1 s2 c2 h1 h2 hne hpre
  unfold huffCodeTable at h
  cases hbt : buildTree (initialNodes dataIn) with
  | none => rw [hbt] at h; exact Option.noConfusion h
  | some t =>
    rw [hbt, Option.map_some', Option.some.injEq] at h
    subst h
    obtain ⟨w, hw⟩ := hpre
    exact hne (getCodeList_comparable_eq t [] s1 s2 c1 c2
      (getCode_mem t (s1, c1) h1) (getCode_mem t (s2, c2) h2) ⟨w, hw⟩).2

/-- Witness for `huffman_code_table_prefixFree` at the input `"ABB"`, whose
table assigns `'A' ↦ [0]` and `'B' ↦ [1]`. -/
theorem huffman_code_table_prefixFree_witness :
    huffCodeTable [65, 66, 66] = some [(65, [false]), (66, [true])] ∧
      ¬ (([false] : List Bool) <+: [true]) :=
  ⟨by decide, huffman_code_table_prefixFree [65, 66, 66] [(65, [false]), (66, [true])]
    (by decide) 65 [false] 66 [true] (by decide) (by decide) (by decide)⟩
